import Mathlib

/-!
# imagetotext: verification of `script.js`

A shallow embedding of the image-to-text page script: the grayscale loop of
`preprocessImage`, the text post-processing and error handling of `processImage`,
the OCR character whitelist, and the drop, paste and copy handlers.

Conventions of the embedding:

* a JavaScript string is the list of its UTF-16 code units (`JSString`);
* a `Uint8ClampedArray` is a list of naturals, each element being a byte;
* a JavaScript number that the grayscale loop can produce is `NaN` or a finite
  non-negative binary fraction `num / 2 ^ shift` (`JSNumber`);
* DOM and browser calls (alert, clipboard, console, the OCR engine) are recorded as
  effects or taken as parameters.
-/

namespace ImageToText

/-! ## Numbers and typed-array stores -/

/-- The numbers the grayscale loop computes with: `NaN`, or the finite non-negative
value `num / 2 ^ shift`. -/
inductive JSNumber where
  | nan : JSNumber
  | fin (num shift : Nat) : JSNumber
deriving DecidableEq, Repr

/-- Round the fraction `n / d` to the nearest integer, ties to even (IEEE 754
`roundTiesToEven`). -/
def roundHalfEven (n d : Nat) : Nat :=
  let q := n / d
  let r := n % d
  if 2 * r < d then q
  else if d < 2 * r then q + 1
  else if q % 2 = 0 then q else q + 1

/-- Search for the binary exponent of the quotient `a / b`: the least `k`, counting up
from the given one, with `2 ^ 52 ≤ a * 2 ^ k / b`, so that the quotient scaled by `2 ^ k`
has a 53-bit integer part. -/
def significandShift (a b : Nat) : Nat → Nat → Nat
  | 0, k => k
  | fuel + 1, k =>
    if b * 2 ^ 52 ≤ a * 2 ^ k then k else significandShift a b fuel (k + 1)

/-- The double-precision quotient `x / 3` of line 115, for `x` an integer-valued sum
(`some s`) or `NaN` (`none`): the exact quotient `s / 3` rounded to a 53-bit significand,
ties to even.  Exact for `1 ≤ s < 3 * 2 ^ 52`, which covers every sum of three bytes. -/
def divideBy3 : Option Nat → JSNumber
  | none => JSNumber.nan
  | some s =>
    if s = 0 then JSNumber.fin 0 0
    else
      let k := significandShift s 3 64 0
      JSNumber.fin (roundHalfEven (s * 2 ^ k) 3) k

/-- ECMAScript `ToUint8Clamp`, the conversion applied by a store into a
`Uint8ClampedArray`: `NaN` becomes `0`, the value is clamped to `0..255` and rounded to
the nearest integer, ties to even. -/
def toUint8Clamp : JSNumber → Nat
  | JSNumber.nan => 0
  | JSNumber.fin num shift =>
    if 255 * 2 ^ shift ≤ num then 255
    else
      let f := num / 2 ^ shift
      let r := num % 2 ^ shift
      if 2 * r < 2 ^ shift then f
      else if 2 ^ shift < 2 * r then f + 1
      else if f % 2 = 0 then f else f + 1

/-! ## `preprocessImage`: the grayscale loop (lines 111-119) -/

/-- The `ImageData` object returned by `ctx.getImageData`. -/
structure ImageData where
  width : Nat
  height : Nat
  data : List Nat
deriving DecidableEq, Repr

/-- The sum `data[i] + data[i + 1] + data[i + 2]`; an index out of range reads
`undefined`, which makes the sum `NaN` (`none`). -/
def channelSum (data : List Nat) (i : Nat) : Option Nat := do
  let r ← data[i]?
  let g ← data[i + 1]?
  let b ← data[i + 2]?
  pure (r + g + b)

/-- One iteration of the loop body (lines 115-118): `avg` is computed first, then stored
into the red, green and blue slots.  A store outside the array is ignored. -/
def grayStep (data : List Nat) (i : Nat) : List Nat :=
  let avg := divideBy3 (channelSum data i)
  let d1 := data.set i (toUint8Clamp avg)
  let d2 := d1.set (i + 1) (toUint8Clamp avg)
  d2.set (i + 2) (toUint8Clamp avg)

/-- The loop `for (let i = 0; i < data.length; i += 4)` of line 114, started at index `i`
with a bound on the number of iterations; `none` means the bound was exhausted. -/
def grayLoop : Nat → Nat → List Nat → Option (List Nat)
  | fuel, i, data =>
    if i < data.length then
      match fuel with
      | 0 => none
      | fuel + 1 => grayLoop fuel (i + 4) (grayStep data i)
    else some data

/-- The grayscale loop run on the pixel data of an image; width and height are those of
the `ImageData` object, which the loop does not touch. -/
def grayscale (img : ImageData) : Option ImageData :=
  (grayLoop img.data.length 0 img.data).map (fun d => { img with data := d })

/-- The value the loop stores for a pixel with colour channels `r`, `g`, `b`. -/
def grayValue (r g b : Nat) : Nat := toUint8Clamp (divideBy3 (some (r + g + b)))

/-! ## Strings -/

/-- A JavaScript string: the list of its UTF-16 code units. -/
abbrev JSString := List Nat

/-- UTF-16 encoding of one code point: one unit in the basic plane, a surrogate pair
above it. -/
def utf16Units (c : Char) : List Nat :=
  if c.toNat < 0x10000 then [c.toNat]
  else [0xD800 + (c.toNat - 0x10000) / 0x400, 0xDC00 + (c.toNat - 0x10000) % 0x400]

/-- The JavaScript string written by a string literal of the source. -/
def utf16 (s : String) : JSString := s.toList.flatMap utf16Units

/-- The line feed U+000A, the only character the pattern `\n` matches. -/
def lineFeed : Nat := 0x0A

/-- The carriage return U+000D. -/
def carriageReturn : Nat := 0x0D

/-- The replacement string of line 85 is the single space U+0020. -/
def space : Nat := 0x20

/-- The code units removed by `String.prototype.trim`: ECMAScript `WhiteSpace` (tab,
vertical tab, form feed, U+FEFF and the space separators) and `LineTerminator` (line feed,
carriage return, U+2028, U+2029). -/
def isWhiteSpace (c : Nat) : Bool :=
  c == 0x09 || c == 0x0B || c == 0x0C || c == 0xFEFF ||
  c == 0x20 || c == 0xA0 || c == 0x1680 || (0x2000 ≤ c && c ≤ 0x200A) ||
  c == 0x202F || c == 0x205F || c == 0x3000 ||
  c == 0x0A || c == 0x0D || c == 0x2028 || c == 0x2029

/-- `String.prototype.trimStart`. -/
def trimStart (s : JSString) : JSString := s.dropWhile isWhiteSpace

/-- `String.prototype.trimEnd`. -/
def trimEnd (s : JSString) : JSString := (s.reverse.dropWhile isWhiteSpace).reverse

/-- `String.prototype.trim`: leading and trailing white space removed. -/
def trim (s : JSString) : JSString := trimEnd (trimStart s)

/-- `String.prototype.startsWith`. -/
def startsWith (s searchString : JSString) : Bool := searchString.isPrefixOf s

/-- Length of the match of the pattern `\n+` anchored at the start of the input: the
quantifier is greedy, so the match is the whole leading run of line feeds; `0` means no
match at this position. -/
def matchNewlines : JSString → Nat
  | [] => 0
  | c :: cs => if c = lineFeed then matchNewlines cs + 1 else 0

/-- The call `replace(/\n+/g, ' ')`, scanning left to right.  The first argument counts the
code units still to be skipped of a match already replaced.  At a position outside a
match the pattern is tried: on a match of length `n + 1` the replacement is emitted and
the scan resumes after the match, otherwise the code unit is copied. -/
def replaceScan : Nat → JSString → JSString
  | _, [] => []
  | skip + 1, _ :: cs => replaceScan skip cs
  | 0, c :: cs =>
    match matchNewlines (c :: cs) with
    | 0 => c :: replaceScan 0 cs
    | n + 1 => space :: replaceScan n cs

/-- The expression `text.replace(/\n+/g, ' ')`. -/
def replaceNewlines (text : JSString) : JSString := replaceScan 0 text

/-! ## `processImage`: recognition and post-processing (lines 72-90) -/

/-- Text shown when recognition gives nothing (line 86). -/
def noTextFound : JSString := utf16 "No text found in the image."

/-- Text shown when recognition fails (line 88). -/
def errorMessage : JSString := utf16 "Error extracting text. Please try again."

/-- Text shown while recognition runs (line 73). -/
def processingMessage : JSString := utf16 "Processing..."

/-- The language argument of line 77. -/
def vie : JSString := utf16 "vie"

/-- The option `tessedit_char_whitelist` of line 80. -/
def tessedit_char_whitelist : JSString :=
  utf16 "abcdefghijklmnopqrstuvwxyzABCDEFGHIJKLMNOPQRSTUVWXYZáàảãạâấầẩẫậăắằẳẵặéèẻẽẹêếềểễệóòỏõọôốồổỗộơớờởỡợúùủũụưứừửữựíìỉĩịýỳỷỹỵđ"

/-- Line 85: `text.replace(/\n+/g, ' ').trim()`. -/
def concatenatedText (text : JSString) : JSString := trim (replaceNewlines text)

/-- The operator `||` on strings: the empty string is the only falsy string. -/
def orElse (a b : JSString) : JSString := if a = [] then b else a

/-- Lines 85-86: the value assigned to `resultText.textContent` on success. -/
def displayText (text : JSString) : JSString := orElse (concatenatedText text) noTextFound

/-- An entry written to the console: `console.log(info)` from the logger callback or
`console.error(error)` from the catch clause. -/
inductive ConsoleEntry (ι ε : Type) where
  | log (info : ι) : ConsoleEntry ι ε
  | error (e : ε) : ConsoleEntry ι ε
deriving DecidableEq, Repr

/-- What the script can observe and change on the page: the text of `resultText` and the
console. -/
structure Page (ι ε : Type) where
  textContent : JSString
  console : List (ConsoleEntry ι ε)
deriving DecidableEq, Repr

/-- Outcome of one `Tesseract.recognize` call: the progress records passed to the logger
and either the recognized text (`data.text`) or the rejection value. -/
structure Recognition (ι ε : Type) where
  progress : List ι
  result : Except ε JSString

/-- The OCR engine: image, language and whitelist option in, outcome out. -/
abbrev Engine (α ι ε : Type) := α → JSString → JSString → Recognition ι ε

/-- Lines 72-90 of the `onload` callback, run on the preprocessed image: show
`Processing...`, call the engine inside `try`, show the post-processed text on success,
and in the catch clause show the error message and log the error. -/
def recognizeAndShow {α ι ε : Type} (recognize : Engine α ι ε) (preprocessedImg : α)
    (page : Page ι ε) : Except ε (Page ι ε) := do
  let page := { page with textContent := processingMessage }
  let run := recognize preprocessedImg vie tessedit_char_whitelist
  let page := { page with console := page.console ++ run.progress.map ConsoleEntry.log }
  try
    let text ← run.result
    pure { page with textContent := displayText text }
  catch error =>
    pure { page with textContent := errorMessage,
                     console := page.console ++ [ConsoleEntry.error error] }

/-! ## Drop, paste and copy handlers (lines 10-41) -/

/-- A `File`: its name and MIME type. -/
structure File where
  name : JSString
  type : JSString
deriving DecidableEq, Repr

/-- A clipboard `DataTransferItem`: its MIME type and what `getAsFile()` returns, the file
of a file item and `null` (`none`) for an item that is not a file item. -/
structure DataTransferItem where
  type : JSString
  getAsFile : Option File
deriving DecidableEq, Repr

/-- What the drop and paste handlers do: call `processImage` with a file or with `null`,
alert, or end with the rejection of an awaited call. -/
inductive InputEffect where
  | processImage (file : Option File) : InputEffect
  | alert (message : JSString) : InputEffect
  | unhandledRejection : InputEffect
deriving DecidableEq, Repr

/-- The call `reader.readAsDataURL(file)` of line 92: the read starts on a file and the
call throws a `TypeError` on `null`. -/
def readAsDataURL : Option File → Except Unit Unit
  | some _ => Except.ok ()
  | none => Except.error ()

/-- The function `processImage` (lines 64-93) as its callers see it: the reader is made,
its `onload` callback installed and `readAsDataURL` called; what that call throws rejects
the promise the function returns. -/
def processImage (file : Option File) : Except Unit Unit := readAsDataURL file

/-- The search string of lines 13 and 24. -/
def imageType : JSString := utf16 "image/"

/-- Alert of line 16. -/
def dropAlert : JSString := utf16 "Please drop a valid image file."

/-- The drop handler (lines 11-18), given `e.dataTransfer.files`.  A rejection of the
awaited call ends the handler. -/
def dropHandler (files : List File) : List InputEffect :=
  match files[0]? with
  | some file =>
    if startsWith file.type imageType then
      match processImage (some file) with
      | Except.ok _ => [InputEffect.processImage (some file)]
      | Except.error _ => [InputEffect.processImage (some file), InputEffect.unhandledRejection]
    else [InputEffect.alert dropAlert]
  | none => [InputEffect.alert dropAlert]

/-- The paste handler (lines 21-29), given `e.clipboardData.items`.  A rejection of the
awaited call ends the handler, so the loop does not reach the remaining items. -/
def pasteHandler : List DataTransferItem → List InputEffect
  | [] => []
  | item :: items =>
    if startsWith item.type imageType then
      match processImage item.getAsFile with
      | Except.ok _ => InputEffect.processImage item.getAsFile :: pasteHandler items
      | Except.error _ =>
        [InputEffect.processImage item.getAsFile, InputEffect.unhandledRejection]
    else pasteHandler items

/-- Initial text of the result region, compared against on line 34. -/
def placeholderText : JSString := utf16 "Your text will appear here..."

/-- Alert of line 35. -/
def copyAlert : JSString := utf16 "There is no text to copy!"

/-- Notification of line 39. -/
def copiedNotice : JSString := utf16 "Text copied to clipboard!"

/-- What the copy handler does. -/
inductive CopyEffect (ε : Type) where
  | alert (message : JSString) : CopyEffect ε
  | writeText (text : JSString) : CopyEffect ε
  | showNotification (message : JSString) : CopyEffect ε
  | consoleError (e : ε) : CopyEffect ε
deriving DecidableEq, Repr

/-- The click handler of the copy button (lines 32-41), given `resultText.textContent`
and the outcome of the clipboard write. -/
def copyHandler {ε : Type} (text : JSString) (written : Except ε Unit) : List (CopyEffect ε) :=
  if trim text = [] ∨ text = placeholderText then [CopyEffect.alert copyAlert]
  else
    CopyEffect.writeText text ::
      (match written with
       | Except.ok _ => [CopyEffect.showNotification copiedNotice]
       | Except.error err => [CopyEffect.consoleError err])

/-! ## Specification-side definitions -/

/-- A line-break character in the words of the specification: the line feed U+000A or the
carriage return U+000D. -/
def isLineBreak (c : Nat) : Bool := c == lineFeed || c == carriageReturn

/-- The line feed alone. -/
def isLineFeed (c : Nat) : Bool := c == lineFeed

/-- Split a string into its maximal runs for a class `p` of characters: blocks of
consecutive code units that are either all in the class or all outside it. -/
def runsOf (p : Nat → Bool) : JSString → List JSString
  | [] => []
  | c :: cs =>
    match runsOf p cs with
    | (d :: run) :: runs =>
      if p c = p d then (c :: d :: run) :: runs
      else [c] :: (d :: run) :: runs
    | _ => [[c]]

/-- The text in which every maximal run of characters of the class `p` is replaced by
exactly one space, every other character being kept in order. -/
def collapseRuns (p : Nat → Bool) (text : JSString) : JSString :=
  (runsOf p text).flatMap (fun run => if run.all p then [space] else run)

/-- The display text as the specification words it: replace every maximal run of line-break
characters by one space, trim, and fall back to the sentinel when nothing is left. -/
def specDisplayText (text : JSString) : JSString :=
  if trim (collapseRuns isLineBreak text) = [] then noTextFound
  else trim (collapseRuns isLineBreak text)

/-- The same with the runs of line feeds only. -/
def lineFeedDisplayText (text : JSString) : JSString :=
  if trim (collapseRuns isLineFeed text) = [] then noTextFound
  else trim (collapseRuns isLineFeed text)

/-- The upper-case Vietnamese letters with diacritics, the counterparts of the 67
lower-case ones listed in the whitelist. -/
def upperVietnamese : JSString :=
  utf16 "ÁÀẢÃẠÂẤẦẨẪẬĂẮẰẲẴẶÉÈẺẼẸÊẾỀỂỄỆÓÒỎÕỌÔỐỒỔỖỘƠỚỜỞỠỢÚÙỦŨỤƯỨỪỬỮỰÍÌỈĨỊÝỲỶỸỴĐ"


/-! # Theorems -/

/-! ## Lemmas on `replace` -/

theorem replaceScan_zero_cons (c : Nat) (cs : JSString) :
    replaceScan 0 (c :: cs) =
      if c = lineFeed then space :: replaceScan (matchNewlines cs) cs
      else c :: replaceScan 0 cs := by
  by_cases h : c = lineFeed
  · simp [replaceScan, matchNewlines, h]
  · simp [replaceScan, matchNewlines, h]

theorem mem_replaceScan : ∀ (s : JSString) (k x : Nat), x ∈ replaceScan k s → x = space ∨ x ∈ s := by
  intro s
  induction s with
  | nil => intro k x h; cases k <;> simp [replaceScan] at h
  | cons c cs ih =>
    intro k x h
    cases k with
    | succ k =>
      simp only [replaceScan] at h
      rcases ih k x h with h1 | h1
      · exact Or.inl h1
      · exact Or.inr (List.mem_cons_of_mem _ h1)
    | zero =>
      rw [replaceScan_zero_cons] at h
      split at h
      · rcases List.mem_cons.mp h with h1 | h1
        · exact Or.inl h1
        · rcases ih _ x h1 with h2 | h2
          · exact Or.inl h2
          · exact Or.inr (List.mem_cons_of_mem _ h2)
      · rcases List.mem_cons.mp h with h1 | h1
        · exact Or.inr (h1 ▸ List.mem_cons_self _ _)
        · rcases ih _ x h1 with h2 | h2
          · exact Or.inl h2
          · exact Or.inr (List.mem_cons_of_mem _ h2)

theorem lineFeed_not_mem_replaceScan_zero : ∀ (s : JSString), lineFeed ∉ replaceScan 0 s ∧
    lineFeed ∉ replaceScan (matchNewlines s) s := by
  intro s
  induction s with
  | nil => simp [replaceScan, matchNewlines]
  | cons c cs ih =>
    constructor
    · rw [replaceScan_zero_cons]
      split
      · intro h
        rcases List.mem_cons.mp h with h1 | h1
        · exact absurd h1 (by decide)
        · exact ih.2 h1
      · rename_i hc
        intro h
        rcases List.mem_cons.mp h with h1 | h1
        · exact hc h1.symm
        · exact ih.1 h1
    · by_cases hc : c = lineFeed
      · simp only [matchNewlines, hc, if_true, replaceScan]
        exact ih.2
      · simp only [matchNewlines, hc, if_false]
        rw [replaceScan_zero_cons, if_neg hc]
        intro h
        rcases List.mem_cons.mp h with h1 | h1
        · exact hc h1.symm
        · exact ih.1 h1

theorem lineFeed_not_mem_replaceNewlines (s : JSString) : lineFeed ∉ replaceNewlines s :=
  (lineFeed_not_mem_replaceScan_zero s).1

theorem replaceNewlines_eq_self : ∀ (s : JSString), lineFeed ∉ s → replaceNewlines s = s := by
  intro s
  unfold replaceNewlines
  induction s with
  | nil => intro _; rfl
  | cons c cs ih =>
    intro h
    have hc : c ≠ lineFeed := fun e => h (e ▸ List.mem_cons_self _ _)
    rw [replaceScan_zero_cons, if_neg hc, ih (fun m => h (List.mem_cons_of_mem _ m))]


/-! ## The maximal runs of a class of characters -/

theorem runsOf_cons_ne_nil (p : Nat → Bool) (c : Nat) (cs : JSString) :
    ∃ run runs, runsOf p (c :: cs) = (c :: run) :: runs := by
  simp only [runsOf]
  split
  · rename_i d run runs _
    by_cases h : p c = p d
    · exact ⟨d :: run, runs, by simp [h]⟩
    · exact ⟨[], (d :: run) :: runs, by simp [h]⟩
  · exact ⟨[], [], rfl⟩

/-- The runs, put back together, give the string. -/
theorem runsOf_join (p : Nat → Bool) : ∀ (s : JSString), (runsOf p s).flatten = s := by
  intro s
  induction s with
  | nil => rfl
  | cons c cs ih =>
    simp only [runsOf]
    split
    · rename_i d run runs heq
      rw [heq] at ih
      by_cases h : p c = p d
      · simp [h, ← ih]
      · simp [h, ← ih]
    · rename_i hne
      cases cs with
      | nil => rfl
      | cons d ds =>
        obtain ⟨run, runs, hr⟩ := runsOf_cons_ne_nil p d ds
        exact absurd hr (hne d run runs)

theorem runsOf_uniform (p : Nat → Bool) : ∀ (s : JSString) (d : Nat) (run : JSString)
    (runs : List JSString), runsOf p s = (d :: run) :: runs →
    ∀ a ∈ run, p a = p d := by
  intro s
  induction s with
  | nil => intro d run runs h; simp [runsOf] at h
  | cons c cs ih =>
    intro d run runs h a ha
    cases cs with
    | nil =>
      simp [runsOf] at h
      rw [h.1.2] at ha
      cases ha
    | cons e es =>
      obtain ⟨run1, runs1, hr⟩ := runsOf_cons_ne_nil p e es
      rw [runsOf, hr] at h
      by_cases hk : p c = p e
      · simp only [hk, if_true, List.cons.injEq] at h
        obtain ⟨⟨hcd, hrun⟩, _⟩ := h
        subst hcd
        rw [← hrun] at ha
        rcases List.mem_cons.mp ha with h1 | h1
        · rw [h1, hk]
        · rw [ih e run1 runs1 hr a h1, hk]
      · simp only [hk, if_false, List.cons.injEq] at h
        rw [← h.1.2] at ha
        cases ha

theorem runsOf_step (p : Nat → Bool) (c e : Nat) (es run1 : JSString) (runs1 : List JSString)
    (hr : runsOf p (e :: es) = (e :: run1) :: runs1) :
    runsOf p (c :: e :: es) =
      if p c = p e then (c :: e :: run1) :: runs1
      else [c] :: (e :: run1) :: runs1 := by
  rw [runsOf, hr]

/-- Every run is non-empty and made of one kind of code unit: all in the class or all
outside it. -/
theorem runsOf_runs_uniform (p : Nat → Bool) : ∀ (s : JSString), ∀ run ∈ runsOf p s,
    run ≠ [] ∧ ∀ a ∈ run, ∀ b ∈ run, p a = p b := by
  intro s
  induction s with
  | nil => intro run h; simp [runsOf] at h
  | cons c cs ih =>
    intro run h
    cases cs with
    | nil =>
      simp [runsOf] at h
      subst h
      simp
    | cons e es =>
      obtain ⟨run1, runs1, hr⟩ := runsOf_cons_ne_nil p e es
      rw [runsOf_step p c e es run1 runs1 hr] at h
      rw [hr] at ih
      have hfirst := (ih (e :: run1) (List.mem_cons_self _ _)).2
      by_cases hk : p c = p e
      · rw [if_pos hk] at h
        rcases List.mem_cons.mp h with h1 | h1
        · subst h1
          refine ⟨by simp, ?_⟩
          have key : ∀ a ∈ c :: e :: run1, p a = p e := by
            intro a ha
            rcases List.mem_cons.mp ha with h2 | h2
            · rw [h2, hk]
            · exact hfirst a h2 e (List.mem_cons_self _ _)
          intro a ha b hb
          rw [key a ha, key b hb]
        · exact ih run (List.mem_cons_of_mem _ h1)
      · rw [if_neg hk] at h
        rcases List.mem_cons.mp h with h1 | h1
        · subst h1
          simp
        · exact ih run h1

/-- The runs are maximal: two neighbouring runs are of different kinds. -/
theorem runsOf_maximal (p : Nat → Bool) : ∀ (s : JSString),
    List.Chain' (fun r1 r2 => r1.head?.map p ≠ r2.head?.map p)
      (runsOf p s) := by
  intro s
  induction s with
  | nil => simp [runsOf]
  | cons c cs ih =>
    cases cs with
    | nil => simp [runsOf]
    | cons e es =>
      obtain ⟨run1, runs1, hr⟩ := runsOf_cons_ne_nil p e es
      rw [runsOf_step p c e es run1 runs1 hr]
      rw [hr] at ih
      by_cases hk : p c = p e
      · rw [if_pos hk]
        cases runs1 with
        | nil => simp
        | cons r2 rs =>
          rw [List.chain'_cons] at ih ⊢
          refine ⟨?_, ih.2⟩
          simpa [hk] using ih.1
      · rw [if_neg hk]
        rw [List.chain'_cons]
        exact ⟨by simpa using hk, ih⟩


/-- Two classes that agree on the characters of a string split it into the same runs. -/
theorem runsOf_congr (p q : Nat → Bool) : ∀ (s : JSString), (∀ c ∈ s, p c = q c) →
    runsOf p s = runsOf q s := by
  intro s
  induction s with
  | nil => intro _; rfl
  | cons c cs ih =>
    intro h
    have ihcs := ih (fun x hx => h x (List.mem_cons_of_mem _ hx))
    cases cs with
    | nil => rfl
    | cons e es =>
      obtain ⟨run1, runs1, hr⟩ := runsOf_cons_ne_nil p e es
      rw [runsOf_step p c e es run1 runs1 hr,
        runsOf_step q c e es run1 runs1 (by rw [← ihcs]; exact hr),
        h c (List.mem_cons_self _ _), h e (List.mem_cons_of_mem _ (List.mem_cons_self _ _))]

theorem all_congr_of_mem (p q : Nat → Bool) : ∀ (run : JSString), (∀ c ∈ run, p c = q c) →
    run.all p = run.all q := by
  intro run
  induction run with
  | nil => intro _; rfl
  | cons c cs ih =>
    intro h
    rw [List.all_cons, List.all_cons, h c (List.mem_cons_self _ _),
      ih (fun x hx => h x (List.mem_cons_of_mem _ hx))]

theorem flatMap_collapse_congr (p q : Nat → Bool) : ∀ (runs : List JSString),
    (∀ run ∈ runs, ∀ c ∈ run, p c = q c) →
    runs.flatMap (fun run => if run.all p then [space] else run) =
      runs.flatMap (fun run => if run.all q then [space] else run) := by
  intro runs
  induction runs with
  | nil => intro _; rfl
  | cons r rs ih =>
    intro h
    rw [List.flatMap_cons, List.flatMap_cons,
      all_congr_of_mem p q r (h r (List.mem_cons_self _ _)),
      ih (fun run hrun => h run (List.mem_cons_of_mem _ hrun))]

/-- Two classes that agree on the characters of a string give the same replacement. -/
theorem collapseRuns_congr (p q : Nat → Bool) (s : JSString) (h : ∀ c ∈ s, p c = q c) :
    collapseRuns p s = collapseRuns q s := by
  unfold collapseRuns
  rw [runsOf_congr p q s h]
  apply flatMap_collapse_congr
  intro run hrun c hc
  apply h
  rw [← runsOf_join q s]
  exact List.mem_flatten.mpr ⟨run, hrun, hc⟩

theorem isLineBreak_eq_isLineFeed (s : JSString) (h : carriageReturn ∉ s) :
    ∀ c ∈ s, isLineBreak c = isLineFeed c := by
  intro c hc
  have hne : c ≠ carriageReturn := fun e => h (e ▸ hc)
  simp [isLineBreak, isLineFeed, hne]

/-! ## Lemmas on `trim` -/

theorem collapseRuns_lineFeed_nil : collapseRuns isLineFeed [] = [] := rfl

theorem collapseRuns_lineFeed_cons (c : Nat) (cs : JSString) :
    collapseRuns isLineFeed (c :: cs) =
      if c = lineFeed then
        (if cs.head? = some lineFeed then collapseRuns isLineFeed cs
         else space :: collapseRuns isLineFeed cs)
      else c :: collapseRuns isLineFeed cs := by
  cases cs with
  | nil =>
    by_cases hc : c = lineFeed
    · simp [collapseRuns, runsOf, isLineFeed, hc]
    · simp [collapseRuns, runsOf, isLineFeed, hc]
  | cons d ds =>
    obtain ⟨run, runs, hr⟩ := runsOf_cons_ne_nil isLineFeed d ds
    have hrun : runsOf isLineFeed (c :: d :: ds) =
        if isLineFeed c = isLineFeed d then (c :: d :: run) :: runs
        else [c] :: (d :: run) :: runs := by
      rw [runsOf, hr]
    unfold collapseRuns
    rw [hrun, hr]
    have hu := runsOf_uniform isLineFeed (d :: ds) d run runs hr
    by_cases hc : c = lineFeed <;> by_cases hd : d = lineFeed
    · have hall : ∀ x ∈ run, isLineFeed x = true := fun a ha => by
        rw [hu a ha, hd]; rfl
      simp [hc, hd, show isLineFeed lineFeed = true from rfl]
      rw [if_pos hall, if_pos hall]
    · simp [isLineFeed, hc, hd]
    · simp [isLineFeed, hc, hd]
    · simp [isLineFeed, hc, hd]

theorem replaceScan_eq_collapse : ∀ (s : JSString),
    replaceScan 0 s = collapseRuns isLineFeed s ∧
    space :: replaceScan (matchNewlines s) s = collapseRuns isLineFeed (lineFeed :: s) := by
  intro s
  induction s with
  | nil => exact ⟨rfl, rfl⟩
  | cons c cs ih =>
    constructor
    · rw [replaceScan_zero_cons, collapseRuns_lineFeed_cons]
      by_cases hc : c = lineFeed
      · rw [if_pos hc, if_pos hc, ih.2, collapseRuns_lineFeed_cons, if_pos rfl]
      · rw [if_neg hc, if_neg hc, ih.1]
    · by_cases hc : c = lineFeed
      · subst hc
        rw [collapseRuns_lineFeed_cons lineFeed (lineFeed :: cs), if_pos rfl,
          if_pos (by rfl : (lineFeed :: cs).head? = some lineFeed), ← ih.2]
        simp [matchNewlines, replaceScan]
      · rw [collapseRuns_lineFeed_cons lineFeed (c :: cs), if_pos rfl,
          if_neg (by simpa using fun e => hc e), collapseRuns_lineFeed_cons, if_neg hc]
        simp only [matchNewlines, hc, if_false]
        rw [replaceScan_zero_cons, if_neg hc, ih.1]

/-- The scan for the pattern computes the replacement of the maximal runs of line feeds. -/
theorem replaceNewlines_eq_collapse (s : JSString) :
    replaceNewlines s = collapseRuns isLineFeed s :=
  (replaceScan_eq_collapse s).1


theorem mem_trim {x : Nat} {s : JSString} (h : x ∈ trim s) : x ∈ s := by
  unfold trim trimEnd trimStart at h
  have h1 := List.dropWhile_subset isWhiteSpace (List.mem_reverse.mp h)
  exact List.dropWhile_subset isWhiteSpace (List.mem_reverse.mp h1)

theorem trimStart_trimStart (s : JSString) : trimStart (trimStart s) = trimStart s :=
  List.dropWhile_idempotent _ _

theorem trimEnd_trimEnd (s : JSString) : trimEnd (trimEnd s) = trimEnd s := by
  unfold trimEnd
  rw [List.reverse_reverse, List.dropWhile_idempotent]

theorem trimStart_eq_nil_iff (s : JSString) :
    trimStart s = [] ↔ ∀ x ∈ s, isWhiteSpace x = true :=
  List.dropWhile_eq_nil_iff

theorem trimEnd_eq_nil_iff (s : JSString) :
    trimEnd s = [] ↔ ∀ x ∈ s, isWhiteSpace x = true := by
  unfold trimEnd
  rw [List.reverse_eq_nil_iff, List.dropWhile_eq_nil_iff]
  simp

theorem trim_eq_nil_iff (s : JSString) : trim s = [] ↔ ∀ x ∈ s, isWhiteSpace x = true := by
  unfold trim
  rw [trimEnd_eq_nil_iff, ← trimStart_eq_nil_iff (trimStart s), trimStart_trimStart,
    trimStart_eq_nil_iff]

theorem trimStart_cons (c : Nat) (cs : JSString) :
    trimStart (c :: cs) = if isWhiteSpace c = true then trimStart cs else c :: cs := by
  unfold trimStart
  by_cases h : isWhiteSpace c = true
  · rw [if_pos h, List.dropWhile_cons_of_pos h]
  · rw [if_neg h, List.dropWhile_cons_of_neg h]

theorem trimStart_head (s : JSString) (c : Nat) (cs : JSString) (h : trimStart s = c :: cs) :
    isWhiteSpace c = false := by
  have h2 := trimStart_trimStart s
  rw [h, trimStart_cons] at h2
  by_cases hc : isWhiteSpace c = true
  · rw [if_pos hc] at h2
    have hl := (List.dropWhile_sublist isWhiteSpace (l := cs)).length_le
    have := congrArg List.length h2
    unfold trimStart at this
    simp at this
    omega
  · simpa using hc

theorem trimEnd_append (s : JSString) : ∃ t, s = trimEnd s ++ t := by
  obtain ⟨t, ht⟩ := List.dropWhile_suffix isWhiteSpace (l := s.reverse)
  refine ⟨t.reverse, ?_⟩
  have := congrArg List.reverse ht
  simpa [trimEnd] using this.symm

theorem trimStart_trim (s : JSString) : trimStart (trim s) = trim s := by
  unfold trim
  cases hu : trimEnd (trimStart s) with
  | nil => rfl
  | cons a u =>
    obtain ⟨t, ht⟩ := trimEnd_append (trimStart s)
    rw [hu] at ht
    have ha := trimStart_head s a (u ++ t) (by simpa using ht)
    rw [trimStart_cons, if_neg (by simp [ha])]

theorem trim_trim (s : JSString) : trim (trim s) = trim s := by
  show trimEnd (trimStart (trim s)) = trim s
  rw [trimStart_trim]
  exact trimEnd_trimEnd (trimStart s)


theorem trimEnd_trim (s : JSString) : trimEnd (trim s) = trim s :=
  trimEnd_trimEnd (trimStart s)

theorem trimEnd_last (s : JSString) (c : Nat) (h : (trimEnd s).getLast? = some c) :
    isWhiteSpace c = false := by
  have hne : List.rdropWhile isWhiteSpace s ≠ [] := by
    intro e
    have e2 : trimEnd s = [] := e
    rw [e2] at h
    cases h
  have hlast := List.rdropWhile_last_not isWhiteSpace s hne
  have h2 : (List.rdropWhile isWhiteSpace s).getLast? = some c := h
  rw [List.getLast?_eq_getLast _ hne] at h2
  have h3 := Option.some.inj h2
  rw [h3] at hlast
  simpa using hlast

/-- What `trim` removes and what it leaves: the string is the trimmed text between a leading
and a trailing block of white space, and the trimmed text neither starts nor ends with white
space. -/
theorem trim_decomposition (s : JSString) :
    ∃ pre suf, s = pre ++ trim s ++ suf ∧
      (∀ c ∈ pre, isWhiteSpace c = true) ∧ (∀ c ∈ suf, isWhiteSpace c = true) ∧
      (∀ c, (trim s).head? = some c → isWhiteSpace c = false) ∧
      (∀ c, (trim s).getLast? = some c → isWhiteSpace c = false) := by
  refine ⟨s.takeWhile isWhiteSpace,
    ((trimStart s).reverse.takeWhile isWhiteSpace).reverse, ?_, ?_, ?_, ?_, ?_⟩
  · have h1 : s = s.takeWhile isWhiteSpace ++ trimStart s :=
      (List.takeWhile_append_dropWhile isWhiteSpace s).symm
    have h2 : trimStart s =
        trim s ++ ((trimStart s).reverse.takeWhile isWhiteSpace).reverse := by
      have h3 := List.takeWhile_append_dropWhile isWhiteSpace (trimStart s).reverse
      have h4 := congrArg List.reverse h3
      rw [List.reverse_append, List.reverse_reverse] at h4
      exact h4.symm
    rw [List.append_assoc, ← h2]
    exact h1
  · intro c hc
    exact List.mem_takeWhile_imp hc
  · intro c hc
    exact List.mem_takeWhile_imp (List.mem_reverse.mp hc)
  · intro c hc
    cases ht : trim s with
    | nil => rw [ht] at hc; cases hc
    | cons a u =>
      rw [ht] at hc
      have hca : a = c := Option.some.inj hc
      rw [← hca]
      exact trimStart_head (trim s) a u (by rw [trimStart_trim, ht])
  · intro c hc
    rw [← trimEnd_trim] at hc
    exact trimEnd_last (trim s) c hc

/-! ## Post-processing of the recognized text -/

theorem orElse_ne_nil (a b : JSString) (hb : b ≠ []) : orElse a b ≠ [] := by
  unfold orElse
  split
  · exact hb
  · assumption

theorem noTextFound_ne_nil : noTextFound ≠ [] := by decide

theorem displayText_noTextFound : displayText noTextFound = noTextFound := by decide

theorem lineFeed_not_mem_noTextFound : lineFeed ∉ noTextFound := by decide

theorem lineFeed_not_mem_concatenatedText (raw : JSString) : lineFeed ∉ concatenatedText raw :=
  fun h => lineFeed_not_mem_replaceNewlines raw (mem_trim h)

theorem concatenatedText_eq_nil_of_whiteSpace (raw : JSString)
    (h : ∀ c ∈ raw, isWhiteSpace c = true) : concatenatedText raw = [] := by
  unfold concatenatedText
  rw [trim_eq_nil_iff]
  intro x hx
  rcases mem_replaceScan raw 0 x hx with h1 | h1
  · rw [h1]; rfl
  · exact h x h1

theorem concatenatedText_fixed (d : JSString) (hlf : lineFeed ∉ d) (ht : trim d = d) :
    concatenatedText d = d := by
  unfold concatenatedText
  rw [replaceNewlines_eq_self d hlf, ht]

/-- C3, counterexample: with the carriage return counted as a line-break character, the
run made of a carriage return and a line feed is not replaced by one space: the carriage
return is kept and only the line feed becomes a space. -/
theorem displayText_carriageReturn_lineFeed :
    displayText (utf16 "a\r\nb") = utf16 "a\r b" ∧
    specDisplayText (utf16 "a\r\nb") = utf16 "a b" ∧
    displayText (utf16 "a\r\nb") ≠ specDisplayText (utf16 "a\r\nb") := by
  decide

/-- C3, amended: the post-processing step of `processImage` returns the text in which every
maximal run of line feeds is replaced by exactly one space and leading and trailing white
space is then removed, every other code unit being kept in order, with the fallback to the
sentinel when nothing is left; on a raw text without carriage return this is the replacement
of every maximal run of line-break characters; the sample text of the specification gives
the expected line. -/
theorem displayText_collapses_lineFeed_runs :
    (∀ raw : JSString, replaceNewlines raw = collapseRuns isLineFeed raw) ∧
    (∀ raw : JSString, ∃ pre suf,
      collapseRuns isLineFeed raw = pre ++ concatenatedText raw ++ suf ∧
      (∀ c ∈ pre, isWhiteSpace c = true) ∧ (∀ c ∈ suf, isWhiteSpace c = true) ∧
      (∀ c, (concatenatedText raw).head? = some c → isWhiteSpace c = false) ∧
      (∀ c, (concatenatedText raw).getLast? = some c → isWhiteSpace c = false)) ∧
    (∀ raw : JSString, displayText raw = lineFeedDisplayText raw) ∧
    (∀ raw : JSString, carriageReturn ∉ raw → displayText raw = specDisplayText raw) ∧
    displayText (utf16 "xin  chào\n\nthế giới\n") = utf16 "xin  chào thế giới" := by
  have hline : ∀ raw : JSString, displayText raw = lineFeedDisplayText raw := by
    intro raw
    unfold displayText lineFeedDisplayText orElse concatenatedText
    rw [replaceNewlines_eq_collapse]
  refine ⟨replaceNewlines_eq_collapse, ?_, hline, ?_, by decide⟩
  · intro raw
    unfold concatenatedText
    rw [replaceNewlines_eq_collapse]
    exact trim_decomposition (collapseRuns isLineFeed raw)
  · intro raw hcr
    rw [hline]
    unfold lineFeedDisplayText specDisplayText
    rw [collapseRuns_congr isLineBreak isLineFeed raw (isLineBreak_eq_isLineFeed raw hcr)]

theorem displayText_collapses_lineFeed_runs_witness :
    carriageReturn ∉ utf16 "xin  chào\n\nthế giới\n" ∧
    displayText (utf16 "xin  chào\n\nthế giới\n") =
      specDisplayText (utf16 "xin  chào\n\nthế giới\n") :=
  ⟨by decide,
   displayText_collapses_lineFeed_runs.2.2.2.1 (utf16 "xin  chào\n\nthế giới\n") (by decide)⟩

/-- C4, counterexample: a carriage return inside the raw text is kept, so the display text
can contain the line-break character U+000D. -/
theorem displayText_keeps_carriageReturn :
    displayText (utf16 "a\rb") = utf16 "a\rb" ∧ carriageReturn ∈ displayText (utf16 "a\rb") := by
  decide

/-- C4, amended: the display text never contains a line feed U+000A. -/
theorem lineFeed_not_mem_displayText (raw : JSString) : lineFeed ∉ displayText raw := by
  unfold displayText orElse
  split
  · exact lineFeed_not_mem_noTextFound
  · exact lineFeed_not_mem_concatenatedText raw

/-- C5: the display text is never the empty string, and a raw text that is empty or made
only of white space and line breaks gives exactly the sentinel. -/
theorem displayText_ne_nil_and_sentinel (raw : JSString) :
    displayText raw ≠ [] ∧
    ((∀ c ∈ raw, isWhiteSpace c = true) → displayText raw = noTextFound) := by
  refine ⟨orElse_ne_nil _ _ noTextFound_ne_nil, fun h => ?_⟩
  unfold displayText orElse
  rw [if_pos (concatenatedText_eq_nil_of_whiteSpace raw h)]

theorem displayText_ne_nil_and_sentinel_witness :
    (∀ c ∈ utf16 " \n\t\r\n ", isWhiteSpace c = true) ∧
    displayText (utf16 " \n\t\r\n ") = noTextFound :=
  ⟨by decide, (displayText_ne_nil_and_sentinel (utf16 " \n\t\r\n ")).2 (by decide)⟩

/-- C6: post-processing is idempotent, also when the result is the sentinel. -/
theorem displayText_idempotent (t : JSString) : displayText (displayText t) = displayText t := by
  by_cases h : concatenatedText t = []
  · have e : displayText t = noTextFound := by
      unfold displayText orElse
      rw [if_pos h]
    rw [e, displayText_noTextFound]
  · have e : displayText t = concatenatedText t := by
      unfold displayText orElse
      rw [if_neg h]
    have hfix : concatenatedText (concatenatedText t) = concatenatedText t :=
      concatenatedText_fixed _ (lineFeed_not_mem_concatenatedText t) (trim_trim _)
    rw [e]
    unfold displayText orElse
    rw [hfix, if_neg h]


/-! ## The grayscale loop -/

theorem grayStep_length (data : List Nat) (i : Nat) : (grayStep data i).length = data.length := by
  simp [grayStep]

theorem grayStep_getElem_other (data : List Nat) (i j : Nat) (h0 : j ≠ i) (h1 : j ≠ i + 1)
    (h2 : j ≠ i + 2) : (grayStep data i)[j]? = data[j]? := by
  simp only [grayStep]
  rw [List.getElem?_set_ne (Ne.symm h2), List.getElem?_set_ne (Ne.symm h1),
    List.getElem?_set_ne (Ne.symm h0)]

theorem channelSum_eq (data : List Nat) (i r g b : Nat) (hr : data[i]? = some r)
    (hg : data[i + 1]? = some g) (hb : data[i + 2]? = some b) :
    channelSum data i = some (r + g + b) := by
  simp [channelSum, hr, hg, hb]

theorem grayStep_getElem_pixel (data : List Nat) (i r g b : Nat) (hlen : i + 2 < data.length)
    (hr : data[i]? = some r) (hg : data[i + 1]? = some g) (hb : data[i + 2]? = some b) :
    (grayStep data i)[i]? = some (grayValue r g b) ∧
    (grayStep data i)[i + 1]? = some (grayValue r g b) ∧
    (grayStep data i)[i + 2]? = some (grayValue r g b) := by
  simp only [grayStep, channelSum_eq data i r g b hr hg hb, grayValue]
  refine ⟨?_, ?_, ?_⟩
  · rw [List.getElem?_set_ne (by omega), List.getElem?_set_ne (by omega),
      List.getElem?_set_self (by omega)]
  · rw [List.getElem?_set_ne (by omega), List.getElem?_set_self (by simp; omega)]
  · rw [List.getElem?_set_self (by simp; omega)]

/-- Invariant of the loop: with enough iterations allowed it ends, keeps the length, the
slots before the start index and every alpha slot, and leaves the gray value in the three
colour slots of every pixel from the start index on. -/
theorem grayLoop_spec : ∀ (fuel i : Nat) (cur : List Nat),
    cur.length ≤ i + 4 * fuel → i % 4 = 0 → cur.length % 4 = 0 →
    ∃ out, grayLoop fuel i cur = some out ∧ out.length = cur.length ∧
      (∀ j, (j < i ∨ j % 4 = 3) → out[j]? = cur[j]?) ∧
      (∀ p r g b, i ≤ 4 * p → 4 * p + 3 < cur.length →
        cur[4 * p]? = some r → cur[4 * p + 1]? = some g → cur[4 * p + 2]? = some b →
        out[4 * p]? = some (grayValue r g b) ∧ out[4 * p + 1]? = some (grayValue r g b) ∧
        out[4 * p + 2]? = some (grayValue r g b)) := by
  intro fuel
  induction fuel with
  | zero =>
    intro i cur hf hi hl
    refine ⟨cur, ?_, rfl, fun _ _ => rfl, ?_⟩
    · unfold grayLoop
      rw [if_neg (by omega)]
    · intro p r g b h1 h2
      omega
  | succ n ih =>
    intro i cur hf hi hl
    unfold grayLoop
    by_cases hc : i < cur.length
    · rw [if_pos hc]
      have hlen := grayStep_length cur i
      obtain ⟨out, ho, hol, hkeep, hpix⟩ := ih (i + 4) (grayStep cur i) (by omega) (by omega) (by omega)
      refine ⟨out, ho, by omega, ?_, ?_⟩
      · intro j hj
        rw [hkeep j (by omega)]
        exact grayStep_getElem_other cur i j (by omega) (by omega) (by omega)
      · intro p r g b h1 h2 hr hg hb
        by_cases hp : 4 * p = i
        · subst hp
          obtain ⟨a1, a2, a3⟩ := grayStep_getElem_pixel cur (4 * p) r g b (by omega) hr hg hb
          rw [hkeep (4 * p) (by omega), hkeep (4 * p + 1) (by omega), hkeep (4 * p + 2) (by omega)]
          exact ⟨a1, a2, a3⟩
        · apply hpix p r g b (by omega) (by omega)
          · rw [grayStep_getElem_other cur i _ (by omega) (by omega) (by omega)]; exact hr
          · rw [grayStep_getElem_other cur i _ (by omega) (by omega) (by omega)]; exact hg
          · rw [grayStep_getElem_other cur i _ (by omega) (by omega) (by omega)]; exact hb
    · rw [if_neg hc]
      refine ⟨cur, rfl, rfl, fun _ _ => rfl, ?_⟩
      intro p r g b h1 h2
      omega


/-- The model of the division gives the doubles nearest to one third and to 255. -/
theorem divideBy3_samples :
    divideBy3 (some 1) = JSNumber.fin 0x15555555555555 54 ∧
    divideBy3 (some 765) = JSNumber.fin (255 * 2 ^ 45) 45 ∧
    divideBy3 none = JSNumber.nan := by
  decide

set_option maxRecDepth 100000 in
/-- Storing a third of a sum of three bytes: the quotient is never halfway between two
integers, and the stored byte is `(s + 1) / 3` in integer division. -/
theorem toUint8Clamp_divideBy3 :
    ∀ s, s ≤ 765 → toUint8Clamp (divideBy3 (some s)) = (s + 1) / 3 := by
  decide!

theorem grayValue_eq (r g b : Nat) (hr : r ≤ 255) (hg : g ≤ 255) (hb : b ≤ 255) :
    grayValue r g b = (r + g + b + 1) / 3 :=
  toUint8Clamp_divideBy3 (r + g + b) (by omega)

theorem grayscale_spec (img : ImageData) (hlen : img.data.length % 4 = 0) :
    ∃ out, grayscale img = some out ∧ out.width = img.width ∧ out.height = img.height ∧
      out.data.length = img.data.length ∧
      (∀ j, j % 4 = 3 → out.data[j]? = img.data[j]?) ∧
      (∀ p r g b, 4 * p + 3 < img.data.length →
        img.data[4 * p]? = some r → img.data[4 * p + 1]? = some g →
        img.data[4 * p + 2]? = some b →
        out.data[4 * p]? = some (grayValue r g b) ∧
        out.data[4 * p + 1]? = some (grayValue r g b) ∧
        out.data[4 * p + 2]? = some (grayValue r g b)) := by
  obtain ⟨d, hd, hl, hkeep, hpix⟩ :=
    grayLoop_spec img.data.length 0 img.data (by omega) rfl hlen
  refine ⟨{ img with data := d }, ?_, rfl, rfl, hl, fun j hj => hkeep j (Or.inr hj), ?_⟩
  · simp [grayscale, hd]
  · intro p r g b h
    exact hpix p r g b (Nat.zero_le _) h

/-- C1: on a pixel buffer of length `width * height * 4` the grayscale loop returns a
buffer of the same length, with the same width and height, in which every pixel has equal
red, green and blue values and the alpha value of the input pixel. -/
theorem grayscale_equal_channels_alpha_kept (img : ImageData)
    (hlen : img.data.length = img.width * img.height * 4) :
    ∃ out, grayscale img = some out ∧ out.width = img.width ∧ out.height = img.height ∧
      out.data.length = img.data.length ∧
      ∀ p, p < img.width * img.height →
        ∃ v a, out.data[4 * p]? = some v ∧ out.data[4 * p + 1]? = some v ∧
          out.data[4 * p + 2]? = some v ∧
          img.data[4 * p + 3]? = some a ∧ out.data[4 * p + 3]? = some a := by
  obtain ⟨out, ho, hw, hh, hl, hkeep, hpix⟩ := grayscale_spec img (by omega)
  refine ⟨out, ho, hw, hh, hl, ?_⟩
  intro p hp
  have h3 : 4 * p + 3 < img.data.length := by omega
  obtain ⟨h0, h1, h2⟩ := hpix p _ _ _ h3
    (List.getElem?_eq_getElem (by omega)) (List.getElem?_eq_getElem (by omega))
    (List.getElem?_eq_getElem (by omega))
  refine ⟨_, img.data[4 * p + 3], h0, h1, h2, List.getElem?_eq_getElem h3, ?_⟩
  rw [hkeep (4 * p + 3) (by omega)]
  exact List.getElem?_eq_getElem h3

theorem grayscale_equal_channels_alpha_kept_witness :
    [10, 20, 31, 7, 0, 0, 0, 255].length = 2 * 1 * 4 ∧
    ∃ out, grayscale ⟨2, 1, [10, 20, 31, 7, 0, 0, 0, 255]⟩ = some out ∧
      out.width = 2 ∧ out.height = 1 ∧ out.data.length = 8 ∧
      ∀ p, p < 2 * 1 →
        ∃ v a, out.data[4 * p]? = some v ∧ out.data[4 * p + 1]? = some v ∧
          out.data[4 * p + 2]? = some v ∧
          [10, 20, 31, 7, 0, 0, 0, 255][4 * p + 3]? = some a ∧
          out.data[4 * p + 3]? = some a :=
  ⟨rfl, grayscale_equal_channels_alpha_kept ⟨2, 1, [10, 20, 31, 7, 0, 0, 0, 255]⟩ rfl⟩

/-- C2: for a pixel with byte channels `r`, `g`, `b` the loop stores in the three colour
channels the integer nearest to the mean `(r + g + b) / 3`; a pixel whose colour channels
are equal keeps its values, and the opaque white pixel is unchanged. -/
theorem grayscale_stores_rounded_mean (img : ImageData)
    (hlen : img.data.length = img.width * img.height * 4)
    (hbyte : ∀ x ∈ img.data, x ≤ 255) (p r g b a : Nat)
    (hr : img.data[4 * p]? = some r) (hg : img.data[4 * p + 1]? = some g)
    (hb : img.data[4 * p + 2]? = some b) (ha : img.data[4 * p + 3]? = some a) :
    (∃ (out : ImageData) (v : Nat), grayscale img = some out ∧
      out.data[4 * p]? = some v ∧ out.data[4 * p + 1]? = some v ∧
      out.data[4 * p + 2]? = some v ∧ out.data[4 * p + 3]? = some a ∧
      |(v : ℚ) - ((r : ℚ) + g + b) / 3| < 1 / 2 ∧
      (r = g → g = b → v = r)) ∧
    grayscale ⟨1, 1, [255, 255, 255, 255]⟩ = some ⟨1, 1, [255, 255, 255, 255]⟩ := by
  refine ⟨?_, by decide⟩
  obtain ⟨out, ho, _, _, _, hkeep, hpix⟩ := grayscale_spec img (by omega)
  have h3 : 4 * p + 3 < img.data.length := by
    rcases Nat.lt_or_ge (4 * p + 3) img.data.length with h | h
    · exact h
    · rw [List.getElem?_eq_none h] at ha
      cases ha
  obtain ⟨h0, h1, h2⟩ := hpix p r g b h3 hr hg hb
  have hr8 := hbyte r (List.getElem?_mem hr)
  have hg8 := hbyte g (List.getElem?_mem hg)
  have hb8 := hbyte b (List.getElem?_mem hb)
  have hv := grayValue_eq r g b hr8 hg8 hb8
  refine ⟨out, grayValue r g b, ho, h0, h1, h2, ?_, ?_, ?_⟩
  · rw [hkeep (4 * p + 3) (by omega)]
    exact ha
  · have hlo : 3 * grayValue r g b ≤ r + g + b + 1 := by omega
    have hhi : r + g + b ≤ 3 * grayValue r g b + 1 := by omega
    have hlo2 : (3 : ℚ) * (grayValue r g b : ℚ) ≤ (r : ℚ) + g + b + 1 := by exact_mod_cast hlo
    have hhi2 : (r : ℚ) + g + b ≤ 3 * (grayValue r g b : ℚ) + 1 := by exact_mod_cast hhi
    rw [abs_lt]
    constructor <;> linarith
  · intro e1 e2
    subst e1 e2
    omega

theorem grayscale_stores_rounded_mean_witness :
    ([10, 20, 31, 7].length = 1 * 1 * 4 ∧ ∀ x ∈ [10, 20, 31, 7], x ≤ 255) ∧
    ∃ (out : ImageData) (v : Nat), grayscale ⟨1, 1, [10, 20, 31, 7]⟩ = some out ∧
      out.data[4 * 0]? = some v ∧ out.data[4 * 0 + 1]? = some v ∧
      out.data[4 * 0 + 2]? = some v ∧ out.data[4 * 0 + 3]? = some 7 ∧
      |(v : ℚ) - (((10 : Nat) : ℚ) + (20 : Nat) + (31 : Nat)) / 3| < 1 / 2 ∧
      (10 = 20 → 20 = 31 → v = 10) :=
  ⟨⟨rfl, by decide⟩,
   (grayscale_stores_rounded_mean ⟨1, 1, [10, 20, 31, 7]⟩ rfl (by decide) 0 10 20 31 7
      rfl rfl rfl rfl).1⟩

/-! ## The character whitelist -/

/-- C7: the whitelist passed to the OCR engine holds the Latin letters of both cases and
the lower-case Vietnamese letters with diacritics, among them U+0111, but none of their
upper-case counterparts: U+0110 and the other 66 upper-case letters are absent. -/
theorem whitelist_lacks_upper_vietnamese :
    (∀ c ∈ utf16 "abcdefghijklmnopqrstuvwxyz", c ∈ tessedit_char_whitelist) ∧
    (∀ c ∈ utf16 "ABCDEFGHIJKLMNOPQRSTUVWXYZ", c ∈ tessedit_char_whitelist) ∧
    0x111 ∈ tessedit_char_whitelist ∧
    0x110 ∈ upperVietnamese ∧ 0x110 ∉ tessedit_char_whitelist ∧
    (∀ c ∈ upperVietnamese, c ∉ tessedit_char_whitelist) := by
  decide

/-! ## Recognition and its failure -/

theorem errorMessage_ne_noTextFound : errorMessage ≠ noTextFound := by decide

/-- C8: when the engine call rejects, the step ends normally with the error message as
display text and the error logged; the error message differs from the sentinel and from
whatever the success path shows for an empty result; when the engine call succeeds the
catch clause does not run, and the display text is the post-processed text. -/
theorem recognizeAndShow_reject_and_success {α ι ε : Type} (recognize : Engine α ι ε)
    (preprocessedImg : α) (page : Page ι ε) :
    (∀ error : ε,
      (recognize preprocessedImg vie tessedit_char_whitelist).result = Except.error error →
      recognizeAndShow recognize preprocessedImg page =
        Except.ok
          { textContent := errorMessage,
            console := page.console ++
              (recognize preprocessedImg vie tessedit_char_whitelist).progress.map
                ConsoleEntry.log ++ [ConsoleEntry.error error] }) ∧
    errorMessage ≠ noTextFound ∧
    (∀ raw : JSString, concatenatedText raw = [] → displayText raw ≠ errorMessage) ∧
    (∀ text : JSString,
      (recognize preprocessedImg vie tessedit_char_whitelist).result = Except.ok text →
      recognizeAndShow recognize preprocessedImg page =
        Except.ok
          { textContent := displayText text,
            console := page.console ++
              (recognize preprocessedImg vie tessedit_char_whitelist).progress.map
                ConsoleEntry.log }) := by
  refine ⟨?_, errorMessage_ne_noTextFound, ?_, ?_⟩
  · intro error h
    simp only [recognizeAndShow, h]
    simp [tryCatch, tryCatchThe, MonadExceptOf.tryCatch, Except.tryCatch, bind, Except.bind,
      pure, Except.pure]
  · intro raw h e
    unfold displayText orElse at e
    rw [if_pos h] at e
    exact errorMessage_ne_noTextFound e.symm
  · intro text h
    simp only [recognizeAndShow, h]
    simp [tryCatch, tryCatchThe, MonadExceptOf.tryCatch, Except.tryCatch, bind, Except.bind,
      pure, Except.pure]

theorem recognizeAndShow_reject_and_success_witness :
    recognizeAndShow (fun (_ : Nat) _ _ => ⟨[1, 2], (Except.error 7 : Except Nat JSString)⟩) 0
        ⟨utf16 "old", []⟩ =
      Except.ok ⟨errorMessage, [ConsoleEntry.log 1, ConsoleEntry.log 2, ConsoleEntry.error 7]⟩ ∧
    recognizeAndShow
        (fun (_ : Nat) _ _ => ⟨[1], (Except.ok (utf16 "xin\nchào") : Except Nat JSString)⟩) 0
        ⟨utf16 "old", []⟩ =
      Except.ok ⟨utf16 "xin chào", [ConsoleEntry.log 1]⟩ :=
  ⟨(recognizeAndShow_reject_and_success
      (fun (_ : Nat) _ _ => ⟨[1, 2], (Except.error 7 : Except Nat JSString)⟩) 0
      ⟨utf16 "old", []⟩).1 7 rfl,
   (recognizeAndShow_reject_and_success
      (fun (_ : Nat) _ _ => ⟨[1], (Except.ok (utf16 "xin\nchào") : Except Nat JSString)⟩) 0
      ⟨utf16 "old", []⟩).2.2.2 (utf16 "xin\nchào") rfl⟩

/-! ## The copy handler -/

/-- C9: the copy handler alerts, and writes nothing to the clipboard, exactly when the text
is the placeholder or is white space only (the empty text included); otherwise it writes the
text itself to the clipboard, so the sentinel is copied as it is. -/
theorem copyHandler_refuses_iff {ε : Type} (text : JSString) (written : Except ε Unit) :
    (copyHandler text written = [CopyEffect.alert copyAlert] ↔
      (text = placeholderText ∨ text.all isWhiteSpace = true)) ∧
    ((∃ rest, copyHandler text written = CopyEffect.writeText text :: rest ∧
        ∀ message, CopyEffect.alert message ∉ rest) ↔
      ¬ (text = placeholderText ∨ text.all isWhiteSpace = true)) ∧
    (∃ rest, copyHandler noTextFound written = CopyEffect.writeText noTextFound :: rest) := by
  have hcond : (trim text = [] ∨ text = placeholderText) ↔
      (text = placeholderText ∨ text.all isWhiteSpace = true) := by
    rw [trim_eq_nil_iff, List.all_eq_true]
    exact Or.comm
  have hs : ¬ (trim noTextFound = [] ∨ noTextFound = placeholderText) := by decide
  refine ⟨?_, ?_, ?_⟩
  · rw [← hcond]
    unfold copyHandler
    by_cases h : trim text = [] ∨ text = placeholderText
    · simp [h]
    · rw [if_neg h]
      simp [h]
  · rw [← hcond]
    unfold copyHandler
    by_cases h : trim text = [] ∨ text = placeholderText
    · rw [if_pos h]
      simp [h]
    · rw [if_neg h]
      simp only [h, not_false_eq_true, iff_true]
      refine ⟨_, rfl, ?_⟩
      intro message
      cases written <;> simp
  · unfold copyHandler
    rw [if_neg hs]
    exact ⟨_, rfl⟩

/-! ## The drop and paste handlers -/

theorem pasteHandler_files (items : List DataTransferItem)
    (h : ∀ item ∈ items, startsWith item.type imageType = true → item.getAsFile ≠ none) :
    pasteHandler items =
      (items.filter (fun item => startsWith item.type imageType)).map
        (fun item => InputEffect.processImage item.getAsFile) := by
  induction items with
  | nil => rfl
  | cons item items ih =>
    have ih2 := ih (fun it hit => h it (List.mem_cons_of_mem _ hit))
    by_cases hi : startsWith item.type imageType = true
    · have hf := h item (List.mem_cons_self _ _) hi
      cases hg : item.getAsFile with
      | none => exact absurd hg hf
      | some file => simp [pasteHandler, hi, hg, processImage, readAsDataURL, ih2]
    · simp [pasteHandler, hi, ih2]

theorem pasteHandler_append (before after : List DataTransferItem)
    (h : ∀ item ∈ before, startsWith item.type imageType = true → item.getAsFile ≠ none) :
    pasteHandler (before ++ after) =
      (before.filter (fun item => startsWith item.type imageType)).map
        (fun item => InputEffect.processImage item.getAsFile) ++ pasteHandler after := by
  induction before with
  | nil => rfl
  | cons item items ih =>
    have ih2 := ih (fun it hit => h it (List.mem_cons_of_mem _ hit))
    by_cases hi : startsWith item.type imageType = true
    · have hf := h item (List.mem_cons_self _ _) hi
      cases hg : item.getAsFile with
      | none => exact absurd hg hf
      | some file => simp [pasteHandler, hi, hg, processImage, readAsDataURL, ih2]
    · simp [pasteHandler, hi, ih2]

/-- C10, counterexample: pasting an item that is not an image raises no alert (the paste
handler does nothing at all); dropping a text file before an image file alerts without
starting the pipeline for the image; and an image-typed clipboard item that is not a file
item ends the paste handler before the image file after it. -/
theorem pasteHandler_text_item_silent :
    startsWith (utf16 "text/plain") imageType = false ∧
    pasteHandler [⟨utf16 "text/plain", some ⟨utf16 "note.txt", utf16 "text/plain"⟩⟩] = [] ∧
    dropHandler [⟨utf16 "note.txt", utf16 "text/plain"⟩, ⟨utf16 "a.png", utf16 "image/png"⟩] =
      [InputEffect.alert dropAlert] ∧
    pasteHandler [⟨utf16 "image/png", none⟩,
        ⟨utf16 "image/png", some ⟨utf16 "a.png", utf16 "image/png"⟩⟩] =
      [InputEffect.processImage none, InputEffect.unhandledRejection] := by
  decide

/-- C10, amended: the drop handler looks at the first dropped file only, calls
`processImage` once on it when its type starts with `image/`, and otherwise alerts without
calling it.  The paste handler skips the items of another type, without a call and without
an alert, and calls `processImage` exactly once for each image-typed item, in item order, as
long as `getAsFile()` returns a file; at the first image-typed item for which it returns
`null` the call rejects and the handler ends, the items after it being left unprocessed. -/
theorem dropHandler_pasteHandler_effects :
    (∀ (file : File) (files : List File),
      dropHandler (file :: files) =
        if startsWith file.type imageType = true then [InputEffect.processImage (some file)]
        else [InputEffect.alert dropAlert]) ∧
    dropHandler [] = [InputEffect.alert dropAlert] ∧
    (∀ items : List DataTransferItem,
      (∀ item ∈ items, startsWith item.type imageType = true → item.getAsFile ≠ none) →
      pasteHandler items =
        (items.filter (fun item => startsWith item.type imageType)).map
          (fun item => InputEffect.processImage item.getAsFile)) ∧
    (∀ (before after : List DataTransferItem) (item : DataTransferItem),
      (∀ it ∈ before, startsWith it.type imageType = true → it.getAsFile ≠ none) →
      startsWith item.type imageType = true → item.getAsFile = none →
      pasteHandler (before ++ item :: after) =
        (before.filter (fun it => startsWith it.type imageType)).map
          (fun it => InputEffect.processImage it.getAsFile) ++
        [InputEffect.processImage none, InputEffect.unhandledRejection]) := by
  refine ⟨fun file files => ?_, rfl, pasteHandler_files, ?_⟩
  · by_cases h : startsWith file.type imageType = true
    · simp [dropHandler, h, processImage, readAsDataURL]
    · simp [dropHandler, h]
  · intro before after item hb hi hn
    rw [pasteHandler_append before (item :: after) hb]
    simp [pasteHandler, hi, hn, processImage, readAsDataURL]

theorem dropHandler_pasteHandler_effects_witness :
    pasteHandler [⟨utf16 "text/html", none⟩,
        ⟨utf16 "image/png", some ⟨utf16 "a.png", utf16 "image/png"⟩⟩,
        ⟨utf16 "image/gif", some ⟨utf16 "b.gif", utf16 "image/gif"⟩⟩] =
      [InputEffect.processImage (some ⟨utf16 "a.png", utf16 "image/png"⟩),
       InputEffect.processImage (some ⟨utf16 "b.gif", utf16 "image/gif"⟩)] ∧
    pasteHandler ([⟨utf16 "image/png", some ⟨utf16 "a.png", utf16 "image/png"⟩⟩] ++
        ⟨utf16 "image/x", none⟩ ::
        [⟨utf16 "image/gif", some ⟨utf16 "b.gif", utf16 "image/gif"⟩⟩]) =
      [InputEffect.processImage (some ⟨utf16 "a.png", utf16 "image/png"⟩),
       InputEffect.processImage none, InputEffect.unhandledRejection] :=
  ⟨dropHandler_pasteHandler_effects.2.2.1 _ (by decide),
   dropHandler_pasteHandler_effects.2.2.2 _ _ _ (by decide) (by decide) rfl⟩

end ImageToText
